import Mathlib

/-!
Verification of the fairpy valuation-matrix module and the bidirectional
bag-filling allocation algorithm (1-out-of-(3n/2) MMS).

The Python classes are shallowly embedded: the mutable `ValuationMatrix`
becomes a structure, and every method that in Python could assign to `self`
is translated in state-passing style, returning the pair
`(returned value, state of self after the call)`.  Integer-dtype matrices
are modelled with unbounded `Int` entries (numpy integer arithmetic on the
inputs of interest does not overflow).  Raised `ValueError`s become
`Except` error results carrying the data interpolated into the message.
-/

set_option autoImplicit false

/-- The `ValuationMatrix` class: stored table `_v` (here `v`) plus the two
fields computed once in `__init__`. -/
structure ValuationMatrix where
  v : List (List Int)
  num_of_agents : Nat
  num_of_objects : Nat
deriving DecidableEq

namespace ValuationMatrix

/-- `ValuationMatrix.__init__` applied to a (rectangular) list of lists:
`num_of_agents = len(valuation_matrix)` and
`num_of_objects = 0 if num_of_agents == 0 else len(valuation_matrix[0])`. -/
def mk' (t : List (List Int)) : ValuationMatrix :=
  { v := t
    num_of_agents := t.length
    num_of_objects := if t.length = 0 then 0 else (t.getD 0 []).length }

/-- `__getitem__` with a plain key: the agent's row `self._v[key]`.
The method reads `self` and assigns nothing, so the post-state is `self`. -/
def getRow (M : ValuationMatrix) (agent : Nat) : List Int × ValuationMatrix :=
  (M.v.getD agent [], M)

/-- `agent_value_for_bundle`: `0` for a `None` bundle, otherwise
`sum([self._v[agent][object] for object in bundle])`.  No assignment to
`self`, so the post-state is `self`. -/
def agent_value_for_bundle (M : ValuationMatrix) (agent : Nat)
    (bundle : Option (List Nat)) : Int × ValuationMatrix :=
  match bundle with
  | none => (0, M)
  | some b => ((b.map fun object => (M.v.getD agent []).getD object 0).sum, M)

/-- `without_agent`: a fresh matrix built from `np.delete(self._v, agent, axis=0)`;
`self` is not assigned. -/
def without_agent (M : ValuationMatrix) (agent : Nat) :
    ValuationMatrix × ValuationMatrix :=
  (mk' (M.v.eraseIdx agent), M)

/-- `without_object`: a fresh matrix built from `np.delete(self._v, object, axis=1)`;
`self` is not assigned. -/
def without_object (M : ValuationMatrix) (object : Nat) :
    ValuationMatrix × ValuationMatrix :=
  (mk' (M.v.map fun row => row.eraseIdx object), M)

/-- `submatrix`: a fresh matrix from the fancy indexing `self._v[np.ix_(agents, objects)]`;
`self` is not assigned. -/
def submatrix (M : ValuationMatrix) (agents : List Nat) (objects : List Nat) :
    ValuationMatrix × ValuationMatrix :=
  (mk' (agents.map fun a => objects.map fun o => (M.v.getD a []).getD o 0), M)

/-- The generator test of `verify_ordered`:
`any(v_i[j] < v_i[j+1] for j in range(self.num_of_objects-1))`. -/
def rowUnordered (row : List Int) (numObjects : Nat) : Bool :=
  (List.range (numObjects - 1)).any fun j =>
    decide (row.getD j 0 < row.getD (j + 1) 0)

/-- The `for i in self.agents()` loop of `verify_ordered`: the first agent
whose row fails the test raises
`ValueError(f"Valuations of agent {i} are not ordered: {v_i}")`,
embedded as an error carrying the agent index and the row. -/
def verifyOrderedLoop (M : ValuationMatrix) : List Nat → Except (Nat × List Int) Unit
  | [] => .ok ()
  | i :: rest =>
    let v_i := M.v.getD i []
    if rowUnordered v_i M.num_of_objects then .error (i, v_i)
    else verifyOrderedLoop M rest

/-- `verify_ordered`: scans agents `0, 1, ...` in order; no assignment to
`self`, so the post-state is `self`. -/
def verify_ordered (M : ValuationMatrix) :
    (Except (Nat × List Int) Unit) × ValuationMatrix :=
  (verifyOrderedLoop M (List.range M.num_of_agents), M)

/-- Embedding of `np.lcm.reduce` on a non-empty integer vector: fold `lcm`
over the entries starting from the first (numpy raises on an empty reduce;
the empty case below is never exercised by the theorems). -/
def lcmReduce : List Int → Int
  | [] => 0
  | h :: t => t.foldl (fun a b => (Int.lcm a b : Int)) h

/-- `normalize`, integer-dtype branch: `total_values = np.sum(self._v, axis=1)`,
`total_value = np.lcm.reduce(total_values)`, then the in-place update
`self._v *= total_value // total_values` (each row `i` is multiplied by
`total_value // total_values[i]`; `//` is floor division, `Int.fdiv`).
Returns `total_value` and the mutated state. -/
def normalize (M : ValuationMatrix) : Int × ValuationMatrix :=
  let total_value := lcmReduce (M.v.map List.sum)
  (total_value,
   { M with v := M.v.map fun row => row.map fun x => x * total_value.fdiv row.sum })

/-- `verify_normalized`: `total_values = np.sum(self._v, axis=1)`; raises
`ValueError("Valuation matrix is not normalized")` unless
`np.all(total_values == total_values[0])`; otherwise returns `total_values[0]`.
No assignment to `self`, so the post-state is `self`. -/
def verify_normalized (M : ValuationMatrix) :
    (Except String Int) × ValuationMatrix :=
  let total_values := M.v.map List.sum
  if total_values.all fun x => decide (x = total_values.getD 0 0) then
    (.ok (total_values.getD 0 0), M)
  else
    (.error "Valuation matrix is not normalized", M)

end ValuationMatrix

/-- A row supplied to `matrix_from` inside a list or dict: either already a
list of numbers, or a dict from item-label to value (a Python dict preserves
insertion order, so it is embedded as an association list). -/
inductive Row where
  | vals (l : List Int)
  | dmap (d : List (String × Int))
deriving DecidableEq

/-- `isinstance(input[i], dict)` for a `Row`. -/
def Row.isDict : Row → Bool
  | .vals _ => false
  | .dmap _ => true

/-- `list(input[i].values())` for a dict row; the identity on a list row. -/
def Row.conv : Row → Row
  | .dmap d => .vals (d.map Prod.snd)
  | r => r

/-- The numeric content of a row (after conversion no `dmap` remains). -/
def Row.toValues : Row → List Int
  | .vals l => l
  | .dmap d => d.map Prod.snd

/-- The input forms accepted by `matrix_from`: a `ValuationMatrix`, a 2-D
numeric array, a list (whose elements may be lists or dicts), or a dict from
agent-label to row (again embedded as an insertion-ordered association list). -/
inductive MatrixInput where
  | matrix (M : ValuationMatrix)
  | ndarray (a : List (List Int))
  | listOf (l : List Row)
  | dictOf (d : List (String × Row))
deriving DecidableEq

/-- `matrix_from`, in state-passing style over its argument: the result plus
the argument's state after the call.  A dict argument is turned into a *new*
list by `list(input.values())` (the caller's dict is untouched); a list
argument has each dict element replaced in place by `list(element.values())`
(the caller's list IS mutated); then `np.array` and `ValuationMatrix(...)`. -/
def matrix_from_full : MatrixInput → ValuationMatrix × MatrixInput
  | .matrix M => (M, .matrix M)
  | .ndarray a => (ValuationMatrix.mk' a, .ndarray a)
  | .dictOf d =>
    let asList := d.map Prod.snd
    (ValuationMatrix.mk' ((asList.map Row.conv).map Row.toValues), .dictOf d)
  | .listOf l =>
    let converted := l.map Row.conv
    (ValuationMatrix.mk' (converted.map Row.toValues), .listOf converted)

/-- The value returned by `matrix_from`. -/
def matrix_from (input : MatrixInput) : ValuationMatrix :=
  (matrix_from_full input).1

/-- Modelled from the spec: `SequentialAllocation` (class of
`fairpy.items.bag_filling`, not under `src`) — "mutable record of
`remaining_objects` (ordered sequence, original order preserved),
`remaining_agents`, and `bundles` (partial agent→bundle map)". -/
structure SequentialAllocation where
  remaining_objects : List Nat
  remaining_agents : List Nat
  bundles : List (Option (List Nat))
deriving DecidableEq

/-- Modelled from the spec: `let_agent_get_objects(agent, objects)`
"atomically records `bundles[agent] = objects`, removes `agent` from
`remaining_agents`, removes every item in `objects` from `remaining_objects`". -/
def SequentialAllocation.let_agent_get_objects (s : SequentialAllocation)
    (agent : Nat) (objects : List Nat) : SequentialAllocation :=
  { remaining_objects := s.remaining_objects.filter fun o => !(objects.contains o)
    remaining_agents := s.remaining_agents.erase agent
    bundles := s.bundles.set agent (some objects) }

/-- Modelled from the spec: `Bag.fill(candidate_items, candidate_agents)`
(class `Bag` of `fairpy.items.bag_filling`, not under `src`) — "repeatedly
takes the next item from `candidate_items`, adds it to the bag, and checks
whether any agent in `candidate_agents` now values the bag at or above its
threshold.  Returns as soon as one agent qualifies, tie-broken by the first
agent (in `candidate_agents` order) to reach its threshold; returns
`(None, items_consumed_so_far)` if `candidate_items` is exhausted with no
agent qualifying."  The bag's value for an agent is the matrix's
bundle-value summation of the bag's contents. -/
def Bag.fill (M : ValuationMatrix) (thresholds : List Int) :
    List Nat → List Nat → List Nat → Option Nat × List Nat
  | [], _, bag => (none, bag)
  | item :: rest, agents, bag =>
    let bag2 := bag ++ [item]
    match agents.find? (fun a =>
        decide (thresholds.getD a 0 ≤ (M.agent_value_for_bundle a (some bag2)).1)) with
    | some a => (some a, bag2)
    | none => Bag.fill M thresholds rest agents bag2

/-- The `while True` loop of `bidirectional_bag_filling`, with fuel (each
successful round removes at least the bag's first object from
`remaining_objects`, so `num_of_objects + 1` units of fuel always suffice):
break when no objects remain; otherwise start a bag with
`remaining_objects[0]`, fill it from `reversed(remaining_objects[1:])`,
break if no agent is willing, and otherwise record the bundle and repeat. -/
def allocLoop (M : ValuationMatrix) (thresholds : List Int) :
    Nat → SequentialAllocation → SequentialAllocation
  | 0, s => s
  | fuel + 1, s =>
    match s.remaining_objects with
    | [] => s
    | highest_valued_object :: rest =>
      match Bag.fill M thresholds rest.reverse s.remaining_agents
          [highest_valued_object] with
      | (none, _) => s
      | (some willing_agent, allocated_objects) =>
        allocLoop M thresholds fuel
          (s.let_agent_get_objects willing_agent allocated_objects)

/-- The errors `bidirectional_bag_filling` can raise, carrying the data
interpolated into the `ValueError` messages. -/
inductive AllocError where
  | orderingViolation (agent : Nat) (row : List Int)
  | shapeMismatch (num_of_agents : Nat) (num_of_thresholds : Nat)
deriving DecidableEq

/-- Modelled from the spec: the external `Allocation` result type — "holds
the final agent→bundle mapping" over the valuation matrix; "agents with no
entry mapped to null with value 0". -/
structure Allocation where
  matrix : ValuationMatrix
  bundles : List (Option (List Nat))
deriving DecidableEq

/-- Modelled from the spec: the value an `Allocation` reports for an agent —
the matrix's bundle-value summation of the agent's bundle, `0` for an agent
mapped to no bundle. -/
def Allocation.value (A : Allocation) (i : Nat) : Int :=
  (A.matrix.agent_value_for_bundle i (A.bundles.getD i none)).1

/-- `bidirectional_bag_filling(valuation_matrix, thresholds)`:
`matrix_from`, then `verify_ordered` (its `ValueError` propagates), then the
thresholds-length check
`ValueError(f"Number of valuations {n} differs from number of thresholds {k}")`,
then the bag-filling loop over a fresh `SequentialAllocation`, and finally
`Allocation(valuation_matrix, allocation.bundles)`. -/
def bidirectional_bag_filling (input : MatrixInput) (thresholds : List Int) :
    Except AllocError Allocation :=
  let M := matrix_from input
  match (M.verify_ordered).1 with
  | .error e => .error (.orderingViolation e.1 e.2)
  | .ok _ =>
    if thresholds.length ≠ M.num_of_agents then
      .error (.shapeMismatch M.num_of_agents thresholds.length)
    else
      let state0 : SequentialAllocation :=
        { remaining_objects := List.range M.num_of_objects
          remaining_agents := List.range M.num_of_agents
          bundles := List.replicate M.num_of_agents none }
      let final := allocLoop M thresholds (M.num_of_objects + 1) state0
      .ok { matrix := M, bundles := final.bundles }

/-- The data of an `Agent` (abstract base class of
`fairpy.indivisible.agents`) that its `__repr__` reads: the wrapped
valuation's own `__repr__` string, the optional display name, and the
duplicity count. -/
structure AgentData where
  valuationRepr : String
  name : Option String
  duplicity : Int
deriving DecidableEq

/-- `Agent.name()`: the assigned name, or `"Anonymous"`. -/
def AgentData.nameStr (a : AgentData) : String :=
  a.name.getD "Anonymous"

/-- `Agent.__repr__`: `f"{name} is an agent with a {valuation}"` when
`duplicity == 1`, else `f"{name} are {duplicity} agents with a {valuation}"`. -/
def AgentData.reprStr (a : AgentData) : String :=
  if a.duplicity = 1 then
    a.nameStr ++ " is an agent with a " ++ a.valuationRepr
  else
    a.nameStr ++ " are " ++ toString a.duplicity ++ " agents with a " ++ a.valuationRepr

/-- A matrix row is non-increasing: no adjacent pair increases. -/
def NonIncreasing (row : List Int) : Prop :=
  ∀ j, j < row.length - 1 → row.getD (j + 1) 0 ≤ row.getD j 0

/-- The table is rectangular: every row has `num_of_objects` entries (numpy
2-D arrays always satisfy this). -/
def Rect (t : List (List Int)) : Prop :=
  ∀ row ∈ t, row.length = (ValuationMatrix.mk' t).num_of_objects

instance NonIncreasing.decidable (row : List Int) : Decidable (NonIncreasing row) := by
  unfold NonIncreasing
  infer_instance

instance Rect.decidable (t : List (List Int)) : Decidable (Rect t) := by
  unfold Rect
  infer_instance

instance exceptAllocDecEq : DecidableEq (Except AllocError Allocation) := by
  intro a b
  cases a with
  | error ea =>
    cases b with
    | error eb => exact decidable_of_iff (ea = eb) (by simp)
    | ok vb => exact isFalse (by simp)
  | ok va =>
    cases b with
    | error eb => exact isFalse (by simp)
    | ok vb => exact decidable_of_iff (va = vb) (by simp)


/-- Recursive statement of "the sum of the agent's values for the listed
objects", following the spec's words, for comparison with the
implementation's `agent_value_for_bundle`. -/
def specSumOfValues (M : ValuationMatrix) (agent : Nat) : List Nat → Int
  | [] => 0
  | o :: rest => (M.v.getD agent []).getD o 0 + specSumOfValues M agent rest

/-- Replacing the dict elements of a list changes the list as soon as it has
a dict element. -/
lemma map_conv_ne_of_mem_dict {l : List Row} (h : ∃ r ∈ l, r.isDict = true) :
    l.map Row.conv ≠ l := by
  induction l with
  | nil => simp at h
  | cons a t ih =>
    rcases h with ⟨r, hr, hdict⟩
    rcases List.mem_cons.mp hr with rfl | hmem
    · cases r with
      | vals _ => simp [Row.isDict] at hdict
      | dmap d =>
        intro heq
        have : Row.conv (.dmap d) = .dmap d := (List.cons.injEq _ _ _ _ ▸ heq).1
        simp [Row.conv] at this
    · intro heq
      exact ih ⟨r, hmem, hdict⟩ (List.cons.injEq _ _ _ _ ▸ heq).2

/-- Claim C2: on three agents with the identical valuation row
`[97,96,90,12,3,2,1,1,1]`, bag filling with thresholds `[100,100,100]`
yields exactly the bundles `{0,6,7,8}` (value 100), `{1,4,5}` (value 101)
and `{2,3}` (value 102); with thresholds `[101,101,101]` the third agent is
mapped to no bundle (null) with value 0. -/
theorem bidirectional_bag_filling_scenario :
    ((bidirectional_bag_filling
        (.listOf (List.replicate 3 (Row.vals [97,96,90,12,3,2,1,1,1])))
        [100,100,100]).toOption.map fun A =>
        (A.bundles.map fun b => b.map (List.insertionSort (· ≤ ·)),
         (List.range 3).map A.value))
      = some ([some [0,6,7,8], some [1,4,5], some [2,3]], [100, 101, 102]) ∧
    ((bidirectional_bag_filling
        (.listOf (List.replicate 3 (Row.vals [97,96,90,12,3,2,1,1,1])))
        [101,101,101]).toOption.map fun A =>
        (A.bundles.getD 2 none, A.value 2))
      = some (none, 0) := by
  constructor <;> decide

/-- Claim C4 (counterexample): `normalize` does change the stored table —
on the matrix `[[1],[2]]` the integer-branch update rescales it to
`[[2],[2]]`, so `ValuationMatrix` is not immutable under `normalize`. -/
theorem normalize_mutates_table :
    ((ValuationMatrix.mk' [[1],[2]]).normalize.2).v ≠
      (ValuationMatrix.mk' [[1],[2]]).v := by decide

/-- Claim C4 (amended): row extraction, agent/object removal, submatrix
extraction, bundle-value summation, ordering verification and
normalization verification leave the matrix state unchanged, and
`normalize` preserves `num_of_agents` and `num_of_objects` (though it
rewrites the stored entries, as the counterexample shows). -/
theorem valuation_matrix_ops_frame (M : ValuationMatrix) (i a o : Nat)
    (ags objs : List Nat) (b : Option (List Nat)) :
    (M.getRow i).2 = M ∧
    (M.without_agent a).2 = M ∧
    (M.without_object o).2 = M ∧
    (M.submatrix ags objs).2 = M ∧
    (M.agent_value_for_bundle a b).2 = M ∧
    (M.verify_ordered).2 = M ∧
    (M.verify_normalized).2 = M ∧
    (M.normalize).2.num_of_agents = M.num_of_agents ∧
    (M.normalize).2.num_of_objects = M.num_of_objects := by
  refine ⟨rfl, rfl, rfl, rfl, ?_, rfl, ?_, rfl, rfl⟩
  · cases b <;> rfl
  · unfold ValuationMatrix.verify_normalized
    dsimp only
    split <;> rfl

/-- Claim C7: all accepted input forms of `matrix_from` produce the same
internal table, preserving insertion order — a dict of rows equals the list
of its values in insertion order; a dict of dicts yields the table of each
inner dict's values in insertion order; an array and the equal list of
lists yield equal matrices. -/
theorem matrix_from_forms_agree :
    (∀ d : List (String × List Int),
      matrix_from (.dictOf (d.map fun p => (p.1, Row.vals p.2)))
        = matrix_from (.listOf (d.map fun p => Row.vals p.2))) ∧
    (∀ dd : List (String × List (String × Int)),
      matrix_from (.dictOf (dd.map fun p => (p.1, Row.dmap p.2)))
        = ValuationMatrix.mk' (dd.map fun p => p.2.map Prod.snd)) ∧
    (∀ a : List (List Int),
      matrix_from (.ndarray a) = matrix_from (.listOf (a.map Row.vals))) := by
  refine ⟨fun d => ?_, fun dd => ?_, fun a => ?_⟩
  · simp only [matrix_from, matrix_from_full, List.map_map]
    exact congrArg ValuationMatrix.mk' (List.map_congr_left fun p _ => rfl)
  · simp only [matrix_from, matrix_from_full, List.map_map]
    exact congrArg ValuationMatrix.mk' (List.map_congr_left fun p _ => rfl)
  · simp only [matrix_from, matrix_from_full, List.map_map]
    exact congrArg ValuationMatrix.mk'
      (((List.map_congr_left fun x _ => rfl).trans a.map_id).symm)

/-- Claim C8: `agent_value_for_bundle` returns `0` for a null bundle, and
for a bundle given as a list of object indices it returns the sum of the
agent's values for the listed objects. -/
theorem agent_value_for_bundle_sum (M : ValuationMatrix) (agent : Nat) :
    (M.agent_value_for_bundle agent none).1 = 0 ∧
    ∀ b : List Nat,
      (M.agent_value_for_bundle agent (some b)).1 = specSumOfValues M agent b := by
  refine ⟨rfl, fun b => ?_⟩
  induction b with
  | nil => rfl
  | cons o rest ih =>
    simpa [ValuationMatrix.agent_value_for_bundle, specSumOfValues] using
      congrArg (fun z => (M.v.getD agent []).getD o 0 + z)
        (by simpa [ValuationMatrix.agent_value_for_bundle] using ih)

/-- Claim C9: the printed representation of an `Agent` distinguishes
singular from duplicated agents — `"<name> is an agent with a <valuation>"`
when the duplicity is 1, `"<name> are <duplicity> agents with a <valuation>"`
when it is greater than 1. -/
theorem agent_repr_duplicity (a : AgentData) :
    (a.duplicity = 1 →
      a.reprStr = a.nameStr ++ " is an agent with a " ++ a.valuationRepr) ∧
    (1 < a.duplicity →
      a.reprStr = a.nameStr ++ " are " ++ toString a.duplicity
        ++ " agents with a " ++ a.valuationRepr) := by
  constructor
  · intro h1
    simp [AgentData.reprStr, h1]
  · intro hgt
    have hne : a.duplicity ≠ 1 := by omega
    simp [AgentData.reprStr, hne]

/-- Witness for C9: the two formats at concrete agents. -/
theorem agent_repr_duplicity_witness :
    (AgentData.reprStr { valuationRepr := "Binary valuation", name := some "Alice", duplicity := 1 }
      = (AgentData.nameStr { valuationRepr := "Binary valuation", name := some "Alice", duplicity := 1 })
        ++ " is an agent with a " ++ "Binary valuation") ∧
    (AgentData.reprStr { valuationRepr := "Binary valuation", name := none, duplicity := 2 }
      = (AgentData.nameStr { valuationRepr := "Binary valuation", name := none, duplicity := 2 })
        ++ " are " ++ toString (2 : Int) ++ " agents with a " ++ "Binary valuation") :=
  ⟨(agent_repr_duplicity _).1 rfl, (agent_repr_duplicity _).2 (by decide)⟩

/-- Claim C10: `matrix_from` mutates a list argument — after the call the
caller's list has every dict element replaced by the list of that dict's
values: the post-state equals the converted list, which is unchanged when no
element is a dict and differs from the original as soon as some element is. -/
theorem matrix_from_mutates_list_arg (l : List Row) :
    (matrix_from_full (.listOf l)).2 = .listOf (l.map Row.conv) ∧
    ((∀ r ∈ l, r.isDict = false) → (matrix_from_full (.listOf l)).2 = .listOf l) ∧
    ((∃ r ∈ l, r.isDict = true) → (matrix_from_full (.listOf l)).2 ≠ .listOf l) := by
  refine ⟨rfl, fun hnone => ?_, fun hsome => ?_⟩
  · have hmap : l.map Row.conv = l := by
      have h1 : l.map Row.conv = l.map id := List.map_congr_left fun r hr => by
        cases r with
        | vals _ => rfl
        | dmap d => exact absurd (hnone _ hr) (by simp [Row.isDict])
      simpa using h1
    simp [matrix_from_full, hmap]
  · intro heq
    have h2 : l.map Row.conv = l := by
      have := congrArg (fun m => match m with | MatrixInput.listOf x => x | _ => []) heq
      simpa [matrix_from_full] using this
    exact map_conv_ne_of_mem_dict hsome h2

/-- Witness for C10: a concrete one-element list holding a dict is changed
by the call, and a concrete dict-free list is not. -/
theorem matrix_from_mutates_list_arg_witness :
    (matrix_from_full (.listOf [Row.dmap [("x", 1)]])).2
      ≠ .listOf [Row.dmap [("x", 1)]] ∧
    (matrix_from_full (.listOf [Row.vals [1, 2]])).2 = .listOf [Row.vals [1, 2]] :=
  ⟨(matrix_from_mutates_list_arg _).2.2 ⟨Row.dmap [("x", 1)], by simp, rfl⟩,
   (matrix_from_mutates_list_arg _).2.1 (by simp [Row.isDict])⟩

/-- Lookup with default at an in-range index is membership. -/
lemma getD_mem_of_lt (t : List (List Int)) (i : Nat) (hi : i < t.length) :
    t.getD i [] ∈ t := by
  rw [List.getD_eq_getElem _ _ hi]
  exact List.getElem_mem _

/-- On a row of the declared width, the generator test of `verify_ordered`
is exactly the failure of `NonIncreasing`. -/
lemma rowUnordered_iff (row : List Int) :
    ValuationMatrix.rowUnordered row row.length = true ↔ ¬ NonIncreasing row := by
  unfold ValuationMatrix.rowUnordered NonIncreasing
  rw [List.any_eq_true]
  push_neg
  constructor
  · rintro ⟨j, hj, hlt⟩
    exact ⟨j, List.mem_range.mp hj, of_decide_eq_true hlt⟩
  · rintro ⟨j, hj, hlt⟩
    exact ⟨j, List.mem_range.mpr hj, decide_eq_true hlt⟩

/-- For a rectangular table, the loop test at agent `i` is the failure of
`NonIncreasing` on row `i`. -/
lemma rowUnordered_key (t : List (List Int)) (hrect : Rect t) (i : Nat)
    (hi : i < t.length) :
    ValuationMatrix.rowUnordered ((ValuationMatrix.mk' t).v.getD i [])
        (ValuationMatrix.mk' t).num_of_objects = true ↔
      ¬ NonIncreasing (t.getD i []) := by
  have hl : (t.getD i []).length = (ValuationMatrix.mk' t).num_of_objects :=
    hrect _ (getD_mem_of_lt t i hi)
  have : (ValuationMatrix.mk' t).v.getD i [] = t.getD i [] := rfl
  rw [this, ← hl]
  exact rowUnordered_iff _

/-- A scan over agents whose rows all pass the test returns `ok`. -/
lemma verifyOrderedLoop_ok (M : ValuationMatrix) (l : List Nat)
    (h : ∀ i ∈ l,
      ValuationMatrix.rowUnordered (M.v.getD i []) M.num_of_objects = false) :
    ValuationMatrix.verifyOrderedLoop M l = .ok () := by
  induction l with
  | nil => rfl
  | cons i rest ih =>
    have hc := h i (List.mem_cons_self i rest)
    simp only [ValuationMatrix.verifyOrderedLoop]
    rw [hc, if_neg Bool.false_ne_true]
    exact ih fun j hj => h j (List.mem_cons_of_mem _ hj)

/-- A scan over agents one of whose rows fails the test raises the error for
some failing agent, carrying that agent's index and row. -/
lemma verifyOrderedLoop_error (M : ValuationMatrix) (l : List Nat)
    (h : ∃ i ∈ l,
      ValuationMatrix.rowUnordered (M.v.getD i []) M.num_of_objects = true) :
    ∃ i ∈ l, ValuationMatrix.rowUnordered (M.v.getD i []) M.num_of_objects = true ∧
      ValuationMatrix.verifyOrderedLoop M l = .error (i, M.v.getD i []) := by
  induction l with
  | nil => simp at h
  | cons i rest ih =>
    by_cases hc : ValuationMatrix.rowUnordered (M.v.getD i []) M.num_of_objects = true
    · refine ⟨i, List.mem_cons_self i rest, hc, ?_⟩
      simp only [ValuationMatrix.verifyOrderedLoop]
      rw [hc, if_pos rfl]
    · have hb := Bool.eq_false_iff.mpr hc
      obtain ⟨j, hj, hjbad⟩ := h
      rcases List.mem_cons.mp hj with rfl | hmem
      · exact absurd hjbad hc
      · obtain ⟨k, hk, hkbad, heq⟩ := ih ⟨j, hmem, hjbad⟩
        refine ⟨k, List.mem_cons_of_mem _ hk, hkbad, ?_⟩
        simp only [ValuationMatrix.verifyOrderedLoop]
        rw [hb, if_neg Bool.false_ne_true]
        exact heq

/-- On a rectangular table with all rows non-increasing, `verify_ordered`
returns `ok`. -/
lemma verify_ordered_ok (t : List (List Int)) (hrect : Rect t)
    (hord : ∀ row ∈ t, NonIncreasing row) :
    ((ValuationMatrix.mk' t).verify_ordered).1 = .ok () := by
  apply verifyOrderedLoop_ok
  intro i hi
  rw [List.mem_range] at hi
  have hmem := getD_mem_of_lt t i hi
  cases hbool : ValuationMatrix.rowUnordered
      ((ValuationMatrix.mk' t).v.getD i []) (ValuationMatrix.mk' t).num_of_objects
  · rfl
  · exact absurd (hord _ hmem) ((rowUnordered_key t hrect i hi).mp hbool)

/-- Claim C1: `bidirectional_bag_filling` requires an ordered matrix.  If
every row is non-increasing the ordering error is not raised; if some row
has an adjacent increasing pair, a descriptive error carrying the offending
agent's index and raw row is raised and is the function's result, before any
allocation work. -/
theorem verify_ordered_precondition (t : List (List Int)) (th : List Int)
    (hrect : Rect t) :
    ((∀ row ∈ t, NonIncreasing row) →
      ((ValuationMatrix.mk' t).verify_ordered).1 = .ok () ∧
      ∀ i r, bidirectional_bag_filling (.ndarray t) th
        ≠ .error (.orderingViolation i r)) ∧
    ((∃ row ∈ t, ¬ NonIncreasing row) →
      ∃ i, ¬ NonIncreasing (t.getD i []) ∧
        ((ValuationMatrix.mk' t).verify_ordered).1 = .error (i, t.getD i []) ∧
        bidirectional_bag_filling (.ndarray t) th
          = .error (.orderingViolation i (t.getD i []))) := by
  constructor
  · intro hall
    have hok := verify_ordered_ok t hrect hall
    refine ⟨hok, fun i r heq => ?_⟩
    simp only [bidirectional_bag_filling, matrix_from, matrix_from_full, hok] at heq
    split at heq <;> simp at heq
  · rintro ⟨row0, hmem0, hbad0⟩
    obtain ⟨i0, hi0, hrow0⟩ := List.mem_iff_getElem.mp hmem0
    have hgd : t.getD i0 [] = row0 := by rw [List.getD_eq_getElem _ _ hi0, hrow0]
    have hbadi : ValuationMatrix.rowUnordered
        ((ValuationMatrix.mk' t).v.getD i0 []) (ValuationMatrix.mk' t).num_of_objects
          = true :=
      (rowUnordered_key t hrect i0 hi0).mpr (hgd ▸ hbad0)
    obtain ⟨i, hiMem, hibad, herr⟩ :=
      verifyOrderedLoop_error (ValuationMatrix.mk' t)
        (List.range (ValuationMatrix.mk' t).num_of_agents)
        ⟨i0, List.mem_range.mpr hi0, hbadi⟩
    have hlt : i < t.length := List.mem_range.mp hiMem
    refine ⟨i, (rowUnordered_key t hrect i hlt).mp hibad, herr, ?_⟩
    simp only [bidirectional_bag_filling, matrix_from, matrix_from_full,
      ValuationMatrix.verify_ordered]
    rw [show ValuationMatrix.verifyOrderedLoop (ValuationMatrix.mk' t)
        (List.range (ValuationMatrix.mk' t).num_of_agents)
        = .error (i, (ValuationMatrix.mk' t).v.getD i []) from herr]
    rfl

/-- Witness for C1: on the matrix `[[3,1],[2,5]]` (second row increasing)
with empty thresholds, the ordering error for agent 1 with row `[2,5]` is
raised and is the result. -/
theorem verify_ordered_precondition_witness :
    ∃ i, ¬ NonIncreasing (([[3,1],[2,5]] : List (List Int)).getD i []) ∧
      ((ValuationMatrix.mk' [[3,1],[2,5]]).verify_ordered).1
        = .error (i, ([[3,1],[2,5]] : List (List Int)).getD i []) ∧
      bidirectional_bag_filling (.ndarray [[3,1],[2,5]]) []
        = .error (.orderingViolation i (([[3,1],[2,5]] : List (List Int)).getD i [])) :=
  (verify_ordered_precondition [[3,1],[2,5]] [] (by decide)).2
    ⟨[2,5], by decide, by decide⟩

/-- Claim C3 (counterexample): the thresholds-length check is NOT performed
for every matrix — on the unordered matrix `[[0,1]]` with an empty
thresholds list (lengths 0 and 1 differ), the function raises the ordering
error, not an error naming the two counts. -/
theorem threshold_mismatch_not_first_check :
    ([] : List Int).length ≠ ([[0,1]] : List (List Int)).length ∧
    bidirectional_bag_filling (.ndarray [[0,1]]) []
      = .error (.orderingViolation 0 [0,1]) ∧
    bidirectional_bag_filling (.ndarray [[0,1]]) []
      ≠ .error (.shapeMismatch 1 0) := by decide

/-- Claim C3 (amended): for every rectangular matrix that passes the
ordering check, a thresholds list of the wrong length makes the function's
result the descriptive error naming the agent count and the thresholds
count (so no allocation work is reflected in the output), and a list of the
right length never yields that error. -/
theorem threshold_mismatch_after_ordering (t : List (List Int)) (th : List Int)
    (hrect : Rect t) (hord : ∀ row ∈ t, NonIncreasing row) :
    (th.length ≠ t.length →
      bidirectional_bag_filling (.ndarray t) th
        = .error (.shapeMismatch t.length th.length)) ∧
    (th.length = t.length →
      ∀ n k, bidirectional_bag_filling (.ndarray t) th
        ≠ .error (.shapeMismatch n k)) := by
  have hok := verify_ordered_ok t hrect hord
  constructor
  · intro hne
    simp only [bidirectional_bag_filling, matrix_from, matrix_from_full, hok]
    rw [if_pos (show th.length ≠ (ValuationMatrix.mk' t).num_of_agents from hne)]
    rfl
  · intro heqlen n k heq
    simp only [bidirectional_bag_filling, matrix_from, matrix_from_full, hok] at heq
    rw [if_neg (show ¬ th.length ≠ (ValuationMatrix.mk' t).num_of_agents from
      not_ne_iff.mpr heqlen)] at heq
    simp at heq

/-- Witness for C3 (amended): the ordered matrix `[[2,1]]` with an empty
thresholds list yields exactly the shape-mismatch error naming counts 1 and
0, and with a matching thresholds list never yields a shape-mismatch error. -/
theorem threshold_mismatch_after_ordering_witness :
    bidirectional_bag_filling (.ndarray [[2,1]]) []
      = .error (.shapeMismatch 1 0) ∧
    ∀ n k, bidirectional_bag_filling (.ndarray [[2,1]]) [5]
      ≠ .error (.shapeMismatch n k) :=
  ⟨(threshold_mismatch_after_ordering [[2,1]] [] (by decide) (by decide)).1
      (by decide),
   (threshold_mismatch_after_ordering [[2,1]] [5] (by decide) (by decide)).2 rfl⟩

/-- A divisor of the start value divides an lcm-fold. -/
lemma dvd_foldl_lcm_init (l : List Int) :
    ∀ a b : Int, a ∣ b → a ∣ l.foldl (fun x y => (Int.lcm x y : Int)) b := by
  induction l with
  | nil =>
    intro a b h
    simpa using h
  | cons c t ih =>
    intro a b h
    simp only [List.foldl_cons]
    exact ih a _ (h.trans Int.dvd_lcm_left)

/-- Every list element divides an lcm-fold over the list. -/
lemma mem_dvd_foldl_lcm (l : List Int) :
    ∀ b : Int, ∀ x ∈ l, x ∣ l.foldl (fun x y => (Int.lcm x y : Int)) b := by
  induction l with
  | nil => simp
  | cons c t ih =>
    intro b x hx
    simp only [List.foldl_cons]
    rcases List.mem_cons.mp hx with rfl | hmem
    · exact dvd_foldl_lcm_init t x _ Int.dvd_lcm_right
    · exact ih _ x hmem

/-- Every entry divides the `np.lcm.reduce` of the vector. -/
lemma dvd_lcmReduce (l : List Int) (x : Int) (hx : x ∈ l) :
    x ∣ ValuationMatrix.lcmReduce l := by
  cases l with
  | nil => simp at hx
  | cons h t =>
    rcases List.mem_cons.mp hx with rfl | hmem
    · exact dvd_foldl_lcm_init t x x dvd_rfl
    · exact mem_dvd_foldl_lcm t h x hmem

/-- An lcm-fold of positive numbers from a positive start is positive. -/
lemma foldl_lcm_pos (l : List Int) :
    ∀ b : Int, 0 < b → (∀ x ∈ l, 0 < x) →
      0 < l.foldl (fun x y => (Int.lcm x y : Int)) b := by
  induction l with
  | nil =>
    intro b hb _
    simpa using hb
  | cons c t ih =>
    intro b hb hl
    simp only [List.foldl_cons]
    refine ih _ ?_ fun x hx => hl x (List.mem_cons_of_mem _ hx)
    have hc := hl c (List.mem_cons_self c t)
    have : 0 < Int.lcm b c := by
      rw [Int.lcm_def]
      exact Nat.lcm_pos (Int.natAbs_pos.mpr (ne_of_gt hb)) (Int.natAbs_pos.mpr (ne_of_gt hc))
    exact_mod_cast this

/-- The `np.lcm.reduce` of a non-empty vector of positive numbers is positive. -/
lemma lcmReduce_pos (l : List Int) (hne : l ≠ []) (hpos : ∀ x ∈ l, 0 < x) :
    0 < ValuationMatrix.lcmReduce l := by
  cases l with
  | nil => exact absurd rfl hne
  | cons h t =>
    exact foldl_lcm_pos t h (hpos h (List.mem_cons_self h t))
      fun x hx => hpos x (List.mem_cons_of_mem _ hx)

/-- Summing a row scaled by a constant scales the row's sum. -/
lemma sum_map_mul_right (row : List Int) (c : Int) :
    (row.map fun x => x * c).sum = row.sum * c := by
  induction row with
  | nil => simp
  | cons a t ih => simp [ih, add_mul]

/-- Exact cancellation for Python floor division: `b * (T // b) = T` when
`b` is a nonzero divisor of `T`. -/
lemma mul_fdiv_cancel_of_dvd {b T : Int} (hb : b ≠ 0) (h : b ∣ T) :
    b * T.fdiv b = T := by
  obtain ⟨c, rfl⟩ := h
  rw [Int.mul_fdiv_cancel_left _ hb]

/-- An lcm-fold over copies of a nonnegative `T` starting from `T` is `T`. -/
lemma foldl_lcm_const (T : Int) (hT : 0 ≤ T) :
    ∀ rest : List Int, (∀ x ∈ rest, x = T) →
      rest.foldl (fun x y => (Int.lcm x y : Int)) T = T := by
  intro rest
  induction rest with
  | nil => intro; rfl
  | cons c t ih =>
    intro h
    have hc : c = T := h c (List.mem_cons_self c t)
    have hlcm : ((Int.lcm T T : Nat) : Int) = T := by
      rw [Int.lcm_self]
      exact Int.natAbs_of_nonneg hT
    simp only [List.foldl_cons, hc, hlcm]
    exact ih fun x hx => h x (List.mem_cons_of_mem _ hx)

/-- The `np.lcm.reduce` of a non-empty constant nonnegative vector is the
constant. -/
lemma lcmReduce_of_const (l : List Int) (T : Int) (hT : 0 ≤ T) (hne : l ≠ [])
    (h : ∀ x ∈ l, x = T) : ValuationMatrix.lcmReduce l = T := by
  cases l with
  | nil => exact absurd rfl hne
  | cons a rest =>
    have ha : a = T := h a (List.mem_cons_self a rest)
    show rest.foldl (fun x y => (Int.lcm x y : Int)) a = T
    rw [ha]
    exact foldl_lcm_const T hT rest fun x hx => h x (List.mem_cons_of_mem _ hx)

/-- When every agent's row total is the constant `T`, `verify_normalized`
returns `ok T`. -/
lemma verify_normalized_ok_of_const (M : ValuationMatrix) (T : Int)
    (hne : M.v ≠ []) (h : ∀ x ∈ M.v.map List.sum, x = T) :
    (M.verify_normalized).1 = .ok T := by
  unfold ValuationMatrix.verify_normalized
  dsimp only
  have hmem0 : (M.v.map List.sum).getD 0 0 = T := by
    cases hv : M.v with
    | nil => exact absurd hv hne
    | cons r rest =>
      rw [show (List.map List.sum (r :: rest)).getD 0 0 = r.sum from rfl]
      exact h r.sum (by rw [hv]; exact List.mem_map_of_mem _ (List.mem_cons_self _ _))
  have hall : ((M.v.map List.sum).all fun x =>
      decide (x = (M.v.map List.sum).getD 0 0)) = true := by
    rw [List.all_eq_true]
    intro x hx
    exact decide_eq_true (by rw [hmem0]; exact h x hx)
  rw [if_pos hall, hmem0]

/-- Claim C5: on a non-empty integer matrix with positive row totals,
`normalize` makes all row totals equal to the returned common total, so
`verify_normalized` succeeds on the result, and running `normalize` again
leaves the stored table unchanged (the fixed-point sense of idempotence). -/
theorem normalize_idempotent (t : List (List Int)) (hne : t ≠ [])
    (hpos : ∀ row ∈ t, 0 < row.sum) :
    (∀ row ∈ ((ValuationMatrix.mk' t).normalize.2).v,
      row.sum = (ValuationMatrix.mk' t).normalize.1) ∧
    ((ValuationMatrix.mk' t).normalize.2).verify_normalized.1
      = .ok ((ValuationMatrix.mk' t).normalize.1) ∧
    (((ValuationMatrix.mk' t).normalize.2).normalize.2).v
      = ((ValuationMatrix.mk' t).normalize.2).v := by
  have hTpos : 0 < ValuationMatrix.lcmReduce (t.map List.sum) := by
    refine lcmReduce_pos _ (fun hnil => hne ?_) ?_
    · cases t with
      | nil => rfl
      | cons r rest => simp at hnil
    · intro x hx
      obtain ⟨row, hrow, rfl⟩ := List.mem_map.mp hx
      exact hpos row hrow
  have hrowT : ∀ row ∈ t,
      (row.map fun x =>
        x * (ValuationMatrix.lcmReduce (t.map List.sum)).fdiv row.sum).sum
        = ValuationMatrix.lcmReduce (t.map List.sum) := by
    intro row hrow
    have hd : row.sum ∣ ValuationMatrix.lcmReduce (t.map List.sum) :=
      dvd_lcmReduce _ _ (List.mem_map_of_mem _ hrow)
    rw [sum_map_mul_right]
    exact mul_fdiv_cancel_of_dvd (ne_of_gt (hpos row hrow)) hd
  have hv' : ((ValuationMatrix.mk' t).normalize.2).v
      = t.map fun row => row.map fun x =>
          x * (ValuationMatrix.lcmReduce (t.map List.sum)).fdiv row.sum := rfl
  have hsums : ∀ row ∈ ((ValuationMatrix.mk' t).normalize.2).v,
      row.sum = ValuationMatrix.lcmReduce (t.map List.sum) := by
    intro row' hrow'
    rw [hv'] at hrow'
    obtain ⟨row, hrow, rfl⟩ := List.mem_map.mp hrow'
    exact hrowT row hrow
  have hvne : ((ValuationMatrix.mk' t).normalize.2).v ≠ [] := by
    rw [hv']
    cases t with
    | nil => exact absurd rfl hne
    | cons r rest => simp
  have htotconst : ∀ x ∈ ((ValuationMatrix.mk' t).normalize.2).v.map List.sum,
      x = ValuationMatrix.lcmReduce (t.map List.sum) := by
    intro x hx
    obtain ⟨row', hrow', rfl⟩ := List.mem_map.mp hx
    exact hsums row' hrow'
  refine ⟨hsums, verify_normalized_ok_of_const _ _ hvne htotconst, ?_⟩
  have hT' : ValuationMatrix.lcmReduce
      (((ValuationMatrix.mk' t).normalize.2).v.map List.sum)
      = ValuationMatrix.lcmReduce (t.map List.sum) := by
    refine lcmReduce_of_const _ _ hTpos.le ?_ htotconst
    intro hnil
    exact hvne (List.map_eq_nil_iff.mp hnil)
  have hfd : (ValuationMatrix.lcmReduce (t.map List.sum)).fdiv
      (ValuationMatrix.lcmReduce (t.map List.sum)) = 1 := by
    have h1 := mul_fdiv_cancel_of_dvd (ne_of_gt hTpos) (dvd_refl _)
    exact mul_left_cancel₀ (ne_of_gt hTpos) (h1.trans (mul_one _).symm)
  have hv2 : (((ValuationMatrix.mk' t).normalize.2).normalize.2).v
      = ((ValuationMatrix.mk' t).normalize.2).v.map fun row => row.map fun x =>
          x * (ValuationMatrix.lcmReduce
            (((ValuationMatrix.mk' t).normalize.2).v.map List.sum)).fdiv row.sum := rfl
  rw [hv2, hT']
  refine (List.map_congr_left fun row' h' => ?_).trans (List.map_id _)
  rw [hsums row' h', hfd]
  simp

/-- Witness for C5: the matrix `[[1,1],[1,2]]` (row totals 2 and 3) is
rescaled by `normalize` so that both totals equal the returned lcm, a
second `normalize` is the identity on the table, and `verify_normalized`
accepts the result. -/
theorem normalize_idempotent_witness :
    (∀ row ∈ ((ValuationMatrix.mk' [[1,1],[1,2]]).normalize.2).v,
      row.sum = (ValuationMatrix.mk' [[1,1],[1,2]]).normalize.1) ∧
    ((ValuationMatrix.mk' [[1,1],[1,2]]).normalize.2).verify_normalized.1
      = .ok ((ValuationMatrix.mk' [[1,1],[1,2]]).normalize.1) ∧
    (((ValuationMatrix.mk' [[1,1],[1,2]]).normalize.2).normalize.2).v
      = ((ValuationMatrix.mk' [[1,1],[1,2]]).normalize.2).v :=
  normalize_idempotent [[1,1],[1,2]] (by decide) (by decide)

/-- Claim C6: on a non-empty matrix, `verify_normalized` raises an error
exactly when the agents' row totals are not all equal, and when they all
equal a common value `c` it returns `ok c` (raising nothing). -/
theorem verify_normalized_iff (t : List (List Int)) (hne : t ≠ []) :
    ((∃ e, ((ValuationMatrix.mk' t).verify_normalized).1 = .error e) ↔
      ¬ ∃ c, ∀ row ∈ t, row.sum = c) ∧
    (∀ c, (∀ row ∈ t, row.sum = c) →
      ((ValuationMatrix.mk' t).verify_normalized).1 = .ok c) := by
  have hok : ∀ c, (∀ row ∈ t, row.sum = c) →
      ((ValuationMatrix.mk' t).verify_normalized).1 = .ok c := by
    intro c hc
    refine verify_normalized_ok_of_const _ _ hne ?_
    intro x hx
    obtain ⟨row, hrow, rfl⟩ := List.mem_map.mp hx
    exact hc row hrow
  refine ⟨⟨?_, ?_⟩, hok⟩
  · rintro ⟨e, he⟩ ⟨c, hc⟩
    rw [hok c hc] at he
    simp at he
  · intro hnc
    refine ⟨"Valuation matrix is not normalized", ?_⟩
    unfold ValuationMatrix.verify_normalized
    dsimp only
    have hcond : ¬ (((ValuationMatrix.mk' t).v.map List.sum).all fun x =>
        decide (x = ((ValuationMatrix.mk' t).v.map List.sum).getD 0 0)) = true := by
      intro hall
      rw [List.all_eq_true] at hall
      refine hnc ⟨((ValuationMatrix.mk' t).v.map List.sum).getD 0 0, fun row hrow => ?_⟩
      exact of_decide_eq_true (hall row.sum (List.mem_map_of_mem _ hrow))
    rw [if_neg hcond]

/-- Witness for C6: the matrix `[[1,2],[3,0]]` has equal row totals 3 and 3,
so `verify_normalized` returns `ok 3`; the matrix `[[1],[2]]` has unequal
totals, so it raises the error. -/
theorem verify_normalized_iff_witness :
    ((ValuationMatrix.mk' [[1,2],[3,0]]).verify_normalized).1 = .ok 3 ∧
    ∃ e, ((ValuationMatrix.mk' [[1],[2]]).verify_normalized).1 = .error e :=
  ⟨(verify_normalized_iff [[1,2],[3,0]] (by decide)).2 3 (by decide),
   ((verify_normalized_iff [[1],[2]] (by decide)).1).mpr (by
      rintro ⟨c, hc⟩
      have h1 := hc [1] (by simp)
      have h2 := hc [2] (by simp)
      simp at h1 h2
      omega)⟩
